import Mathlib

/-!
Verification development for the goPricesBeta collection store.

The definitions below are a shallow embedding of the repository sources:
  * the postgres schema and the plpgsql function add_card
    (src/unnamed/part_000),
  * the Go UserStructs manager, in particular AddUser (src/unnamed/part_001),
  * the Go type-ahead index builder (src/utilities/cardData/typeAheadData.go).
Text values are lists of unicode characters; SQL LENGTH counts characters
while the Go builtin len counts UTF-8 bytes, and both are modelled
explicitly.  Database tables are lists of rows; concurrent transactions are
modelled as interference functions applied at the points where another
transaction may commit between two statements of add_card.
-/

namespace GoPrices

/-- A text value: a list of unicode scalar values. -/
abbrev Text := List Char

/-- Number of bytes of the UTF-8 encoding of one character. -/
def utf8Size (c : Char) : Nat :=
  if c.toNat < 0x80 then 1
  else if c.toNat < 0x800 then 2
  else if c.toNat < 0x10000 then 3
  else 4

/-- The UTF-8 encoding of one character, as a list of bytes. -/
def encodeChar (c : Char) : List Nat :=
  let n := c.toNat
  if n < 0x80 then [n]
  else if n < 0x800 then [0xC0 + n / 0x40, 0x80 + n % 0x40]
  else if n < 0x10000 then
    [0xE0 + n / 0x1000, 0x80 + (n / 0x40) % 0x40, 0x80 + n % 0x40]
  else
    [0xF0 + n / 0x40000, 0x80 + (n / 0x1000) % 0x40,
      0x80 + (n / 0x40) % 0x40, 0x80 + n % 0x40]

/-- The UTF-8 encoding of a text value. -/
def encodeText (s : Text) : List Nat := (s.map encodeChar).flatten

/-- The Go builtin len on a string: the number of UTF-8 bytes. -/
def goLen (s : Text) : Nat := (encodeText s).length

/-- SQL domain standardText (part_000 lines 57-59):
LENGTH(VALUE) < 280, where LENGTH counts characters. -/
def standardTextOk (s : Text) : Bool := s.length < 280

/-- SQL domain possibleQuality (part_000 lines 67-71). -/
def possibleQualityOk (s : Text) : Bool :=
  s = "NM".toList || s = "LP".toList || s = "HP".toList

/-- SQL domain possibleLanguage (part_000 lines 76-88). -/
def possibleLanguageOk (s : Text) : Bool :=
  s = "EN".toList || s = "ZH-HANS".toList || s = "ZH-HANT".toList ||
  s = "FR".toList || s = "IT".toList || s = "DE".toList ||
  s = "KO".toList || s = "JA".toList || s = "PT".toList ||
  s = "RU".toList || s = "ES".toList

/-! ## users.collectionContents and users.collectionHistory rows -/

/-- A row of users.collectionContents, also the attribute shape of a
users.collectionHistory row (part_000 lines 198-217 and 227-246). -/
structure ContentRow where
  cardName : Text
  setName : Text
  comment : Text
  quantity : Int
  quality : Text
  lang : Text
  owner : Text
  collection : Text
  lastUpdate : Int
deriving DecidableEq

/-- The composite identity key of a collectionContents row; the
uniqueContentsKey constraint makes it unique per row. -/
structure ContentKey where
  owner : Text
  collection : Text
  cardName : Text
  setName : Text
  quality : Text
  lang : Text
deriving DecidableEq

def ContentRow.key (r : ContentRow) : ContentKey :=
  ⟨r.owner, r.collection, r.cardName, r.setName, r.quality, r.lang⟩

/-- The arguments of the plpgsql function add_card (part_000 lines 257-262). -/
structure CardSpec where
  owner : Text
  collection : Text
  cardName : Text
  setName : Text
  comment : Text
  quantity : Int
  quality : Text
  lang : Text
  time : Int
deriving DecidableEq

def CardSpec.key (a : CardSpec) : ContentKey :=
  ⟨a.owner, a.collection, a.cardName, a.setName, a.quality, a.lang⟩

/-- The row inserted by the INSERT branch of add_card
(part_000 lines 287-293). -/
def CardSpec.row (a : CardSpec) : ContentRow :=
  ⟨a.cardName, a.setName, a.comment, a.quantity, a.quality, a.lang,
    a.owner, a.collection, a.time⟩

/-- The current contents table: a list of collectionContents rows. -/
abbrev Contents := List ContentRow

/-- Whether a row matches the WHERE clause of the UPDATE in add_card
(part_000 lines 273-279): all six identity columns equal the arguments. -/
def matchesKey (a : CardSpec) (r : ContentRow) : Bool := r.key = a.key

/-- The SET clause of the UPDATE in add_card (part_000 lines 269-272)
applied to one row: matching rows receive the new comment, quantity and
lastUpdate, others are unchanged. -/
def updateRow (a : CardSpec) (r : ContentRow) : ContentRow :=
  if matchesKey a r then
    { r with comment := a.comment, quantity := a.quantity, lastUpdate := a.time }
  else r

/-- The UPDATE statement of add_card applied to the whole table. -/
def updateContents (a : CardSpec) (st : Contents) : Contents :=
  st.map (updateRow a)

/-- The FOUND condition after the UPDATE: some row matched the key. -/
def keyPresent (a : CardSpec) (st : Contents) : Bool :=
  st.any (matchesKey a)

/-- The INSERT statement of add_card (part_000 lines 287-293). -/
def insertRow (a : CardSpec) (st : Contents) : Contents := st ++ [a.row]

/-- An interference schedule: what other committed transactions do to the
table at a given interference point of a given loop iteration.  The
identity schedule models a run of add_card with no concurrency. -/
abbrev Sched := Nat → Contents → Contents

/-- The identity interference schedule: no concurrent transaction. -/
def noInterference : Sched := fun _ st => st

/-- The LOOP body of add_card (part_000 lines 264-299).  Each iteration
runs the UPDATE, returns if FOUND, otherwise tries the INSERT, and on a
uniqueness conflict loops again.  schedU is the interference committed
before the UPDATE of iteration i, schedI the interference committed
between the UPDATE and the INSERT of iteration i (the window in which a
concurrent insert of the same key makes the INSERT raise
unique_violation).  fuel bounds the number of iterations we observe:
the plpgsql LOOP itself has no bound, so a result of none means the loop
is still running after fuel iterations. -/
def add_card (schedU schedI : Sched) (a : CardSpec) :
    Nat → Nat → Contents → Option Contents
  | 0, _, _ => none
  | fuel + 1, i, st =>
    let st0 := schedU i st
    let found := keyPresent a st0
    let st1 := updateContents a st0
    if found then some st1
    else
      let st2 := schedI i st1
      if keyPresent a st2 then add_card schedU schedI a fuel (i + 1) st2
      else some (insertRow a st2)

/-- Number of rows of the table matching the identity key of a spec. -/
def countKey (a : CardSpec) (st : Contents) : Nat :=
  (st.filter (matchesKey a)).length

/-! ## The full ApplyEntry operation (content write plus history append) -/

/-- The database state relevant to ApplyEntry: the contents table and the
append-only history table. -/
structure DB where
  contents : Contents
  history : List ContentRow
deriving DecidableEq

/-- Field validation of an ApplyEntry argument: every text field fits the
standardText domain and quality and language are members of their
enumerations (part_000 domains; spec section 4.2 validation). -/
def validSpec (a : CardSpec) : Bool :=
  standardTextOk a.owner && standardTextOk a.collection &&
  standardTextOk a.cardName && standardTextOk a.setName &&
  standardTextOk a.comment &&
  possibleQualityOk a.quality && possibleLanguageOk a.lang

/-- Modelled from the spec: the ApplyEntry operation of section 4.2.  The
Go wrapper of add_card that validates the fields, runs add_card against
users.collectionContents and then appends exactly one row to
users.collectionHistory is not under src/ (src holds only the schema and
the plpgsql upsert); per the spec, validation happens before the loop,
any violation performs no write, and the history row is appended exactly
once, after the content-row write succeeds. -/
def ApplyEntry (schedU schedI : Sched) (fuel : Nat) (db : DB)
    (a : CardSpec) : Option DB :=
  if validSpec a then
    match add_card schedU schedI a fuel 0 db.contents with
    | none => none
    | some c => some ⟨c, db.history ++ [a.row]⟩
  else none

/-- Number of history rows carrying the identity key of a spec at its
timestamp (the uniqueHistoryKey columns, part_000 lines 242-245). -/
def countHist (a : CardSpec) (h : List ContentRow) : Nat :=
  (h.filter (fun r => matchesKey a r && r.lastUpdate = a.time)).length

/-! ## users.meta and its storage-level constraints -/

/-- A row of users.meta (part_000 lines 116-126). -/
structure MetaRow where
  name : Text
  email : Text
  passhash : List Nat
  nonce : List Nat
  maxcollections : Int
deriving DecidableEq

/-- Pairwise distinctness of a list of texts, as a boolean. -/
def textsDistinct (xs : List Text) : Bool := decide xs.Nodup

/-- Everything the storage layer enforces on a users.meta table state:
the standardText domain on name and email, and the uniquename UNIQUE
constraint on name (with its unique index meta_name_index).  The email
column has only a plain, non-unique index (part_000 line 129). -/
def metaTableOk (t : List MetaRow) : Bool :=
  t.all (fun r => standardTextOk r.name && standardTextOk r.email) &&
  textsDistinct (t.map (·.name))

/-- Whether the emails of a users.meta table state are pairwise distinct. -/
def metaEmailsDistinct (t : List MetaRow) : Bool :=
  textsDistinct (t.map (·.email))

/-! ## Validity windows and the users.resets defaults -/

/-- One day, in seconds: the INTERVAL of the endValid default of
users.resets. -/
def oneDay : Int := 86400

/-- A credential validity window (startValid, endValid). -/
structure Window where
  startValid : Int
  endValid : Int
deriving DecidableEq

/-- The column defaults of users.resets (part_000 lines 165-166):
startValid DEFAULT now(), endValid DEFAULT now() - INTERVAL 1 day. -/
def resetDefaultWindow (now : Int) : Window :=
  ⟨now, now - oneDay⟩

/-- Modelled from the spec: the validity test of sections 3 and 4.1 for a
credential window — valid iff startValid ≤ now < endValid.  The SQL of
ValidateReset is not under src/; the schema comment (part_000 lines
137-139) states that start must be less than end for a session to be
considered valid. -/
def windowValid (w : Window) (t : Int) : Bool :=
  w.startValid ≤ t && t < w.endValid

/-! ## Storage permission grants for the application role -/

/-- A table privilege grantable to the usermanager role. -/
inductive Priv
  | sel
  | ins
  | upd
  | del
deriving DecidableEq

/-- The tables of the users schema. -/
inductive Tbl
  | meta
  | sessions
  | resets
  | collections
  | collectionContents
  | collectionHistory
deriving DecidableEq

/-- The GRANT statements for the usermanager role
(part_000 lines 327-339). -/
def grants : Tbl → List Priv
  | .meta => [.sel, .ins, .upd]
  | .sessions => [.sel, .ins, .del]
  | .resets => [.sel, .ins, .del]
  | .collections => [.sel, .ins, .upd, .del]
  | .collectionContents => [.sel, .ins, .upd]
  | .collectionHistory => [.sel, .ins]

/-! ## Association-list maps (the shallow embedding of Go maps) -/

/-- Lookup in a Go map modelled as an association list. -/
def alGet {κ α : Type} [DecidableEq κ] : List (κ × α) → κ → Option α
  | [], _ => none
  | (k, v) :: rest, key => if k = key then some v else alGet rest key

/-- Assignment in a Go map modelled as an association list: replace the
binding if the key is present, append it otherwise. -/
def alSet {κ α : Type} [DecidableEq κ] : List (κ × α) → κ → α → List (κ × α)
  | [], key, v => [(key, v)]
  | (k, w) :: rest, key, v =>
    if k = key then (key, v) :: rest else (k, w) :: alSet rest key v

/-! ## The Go UserStructs manager and AddUser (src/unnamed/part_001) -/

/-- The length bound of the UserStructs package
(part_001 line 18): user names, passwords and emails are limited to this
many bytes. -/
def fieldLength : Nat := 200

/-- The User record of the UserStructs package, with the fields AddUser
fills in (part_001 lines 55-68); collections start empty and the first
session key is installed. -/
structure User where
  name : Text
  email : Text
  hashedPass : List Nat
  nonce : List Nat
  maxCollections : Int
  collections : List Text
  sessions : List Text
deriving DecidableEq

/-- The in-memory state of the UserManager touched by AddUser: the users
map, the EmailsToUserNames map and the UserNames list.  The stored field
is the model of durable storage: the list of user names whose records
userToStorage has successfully persisted. -/
structure UserManager where
  users : List (Text × User)
  emailsToUserNames : List (Text × Text)
  userNames : List Text
  stored : List Text
deriving DecidableEq

/-- Whether the manager already holds a user of this name
(the userExists check of part_001 line 42). -/
def userExists (m : UserManager) (name : Text) : Bool :=
  (alGet m.users name).isSome

/-- Whether the email is already reserved
(the emailUsed check of part_001 line 47). -/
def emailUsed (m : UserManager) (email : Text) : Bool :=
  (alGet m.emailsToUserNames email).isSome

/-- The outcomes of userToStorage: on success the name joins the durable
set, on failure durable storage is untouched.  The failure case models
the backend being unavailable. -/
def userToStorage (storeOk : Bool) (m : UserManager) (name : Text) :
    Option UserManager :=
  if storeOk then some { m with stored := m.stored ++ [name] } else none

/-- The error cases of AddUser, in the order the Go code checks them
(part_001 lines 29-49 and 84-87). -/
inductive AddUserErr
  | fieldTooLong
  | badPassword
  | userAlreadyExists
  | emailAlreadyUsed
  | storageFailure
deriving DecidableEq

/-- AddUser (part_001 lines 26-96).  pwOk models
passwordMeetsRequirements and derive models passwordDerivation (their
bodies are not under src/, so they stay parameters); freshKey is the key
of the newSession result; storeOk is whether userToStorage succeeds.
The returned manager is the in-memory state after the call: the Go code
installs the user in the users map and the email map, then persists, and
only appends the name to UserNames when persisting succeeded — on a
storage failure it returns the error with the two map insertions left in
place. -/
def AddUser (pwOk : Text → Bool) (derive : Text → List Nat × List Nat)
    (freshKey : Text) (storeOk : Bool) (m : UserManager)
    (name email password : Text) (maxCollections : Int) :
    UserManager × Except AddUserErr Text :=
  if goLen name > fieldLength || goLen email > fieldLength ||
      goLen password > fieldLength then
    (m, .error .fieldTooLong)
  else if !pwOk password then (m, .error .badPassword)
  else if userExists m name then (m, .error .userAlreadyExists)
  else if emailUsed m email then (m, .error .emailAlreadyUsed)
  else
    let nh := derive password
    let aFreshUser : User :=
      ⟨name, email, nh.2, nh.1, maxCollections, [], [freshKey]⟩
    let m1 := { m with users := alSet m.users name aFreshUser }
    let m2 := { m1 with emailsToUserNames := alSet m1.emailsToUserNames email name }
    match userToStorage storeOk m2 name with
    | none => (m2, .error .storageFailure)
    | some m3 => ({ m3 with userNames := m3.userNames ++ [name] }, .ok freshKey)

/-- The emails of the users held in the manager's users map. -/
def managerEmails (m : UserManager) : List Text :=
  m.users.map (fun p => p.2.email)

/-- The email coherence invariant of the manager: every user's email is
reserved in the EmailsToUserNames map. -/
def emailsCovered (m : UserManager) : Bool :=
  m.users.all (fun p => emailUsed m p.2.email)

/-! ## Spec-modelled ephemeral credential issuance (userDBHandler) -/

/-- A users.sessions or users.resets row (part_000 lines 145-169). -/
structure EphemRow where
  name : Text
  key : List Nat
  window : Window
deriving DecidableEq

/-- The error a too-long name produces on issuance, per the spec error
taxonomy (InvalidField, named NameTooLong in section 4.1). -/
inductive EphemErr
  | invalidField
deriving DecidableEq

/-- Modelled from the spec: AddSession of the userDBHandler package, whose
body is not under src/ (only its test, ephemeral_test.go, is).  Per
sections 4.1 and 8, the name-length check happens before any storage
access, a violating name fails with InvalidField and creates no row, and
otherwise the store inserts a session row and returns the opaque key.
The storage layer is the store parameter so that the error path is
provably independent of it. -/
def AddSession (bound : Nat)
    (store : List EphemRow → Text → List EphemRow × List Nat)
    (db : List EphemRow) (name : Text) :
    List EphemRow × Except EphemErr (List Nat) :=
  if goLen name > bound then (db, .error .invalidField)
  else
    let r := store db name
    (r.1, .ok r.2)

/-- Modelled from the spec: RequestReset (IssueResetToken) of the
userDBHandler package, whose body is not under src/; same shape as
AddSession per section 4.1, with the length check before any storage
access. -/
def RequestReset (bound : Nat)
    (store : List EphemRow → Text → List EphemRow × List Nat)
    (db : List EphemRow) (name : Text) :
    List EphemRow × Except EphemErr (List Nat) :=
  if goLen name > bound then (db, .error .invalidField)
  else
    let r := store db name
    (r.1, .ok r.2)

/-! ## The type-ahead index builder (src/utilities/cardData/typeAheadData.go) -/

/-- A type-ahead key: a byte slice of the lowercased name.  Go slices
strings by bytes, so keys are byte lists. -/
abbrev TAKey := List Nat

/-- The typeAhead map type (typeAheadData.go line 60), keys to option
lists. -/
abbrev TypeAheadMap := List (TAKey × List Text)

/-- strings.Replace of one-character Æ by the two characters AE
(typeAheadData.go lines 70 and 101). -/
def replaceAE (s : Text) : Text :=
  (s.map (fun c => if c = 'Æ' then ['A', 'E'] else [c])).flatten

/-- Models the Go standard library unicode.ToLower (applied per rune by
strings.ToLower) restricted to the code points these theorems touch:
ASCII capitals and the Latin-1 capitals map to their lowercase by adding
32, and the UTF-8 byte-shrinking simple lowercase mappings of
UnicodeData are included: U+0130 maps to the one-byte U+0069, U+1E9E to
the two-byte U+00DF, U+2126 to the two-byte U+03C9, U+212A to the
one-byte U+006B and U+212B to the two-byte U+00E5; code points outside
this fragment are left unchanged, which is why the safety theorem below
is stated for an arbitrary per-rune mapping rather than for this
fragment alone. -/
def goToLowerChar (c : Char) : Char :=
  let n := c.toNat
  if 0x41 ≤ n ∧ n ≤ 0x5A then Char.ofNat (n + 32)
  else if n = 0x130 then 'i'
  else if n = 0x1E9E then 'ß'
  else if n = 0x2126 then 'ω'
  else if n = 0x212A then 'k'
  else if n = 0x212B then 'å'
  else if (0xC0 ≤ n ∧ n ≤ 0xD6) ∨ (0xD8 ≤ n ∧ n ≤ 0xDE) then Char.ofNat (n + 32)
  else c

/-- strings.ToLower: lowercase every rune. -/
def goToLower (s : Text) : Text := s.map goToLowerChar

/-- A Go string slice expression bs[0:hi]: defined when hi is at most the
byte length, a panic (modelled as none) otherwise. -/
def sliceTo (bs : List Nat) (hi : Nat) : Option (List Nat) :=
  if hi ≤ bs.length then some (bs.take hi) else none

/-- The inner loop of addList (typeAheadData.go lines 74-88): for
keyIndexEnd running from k while iterations remain, slice the lowercased
name to the key, create the entry when absent, and append the original
name.  A slice beyond the lowercased byte length is the out-of-range
panic, propagated as none. -/
def addKeys (orig : Text) (lower : TAKey) :
    TypeAheadMap → Nat → Nat → Option TypeAheadMap
  | m, 0, _ => some m
  | m, rem + 1, k =>
    match sliceTo lower k with
    | none => none
    | some key =>
      let cur := (alGet m key).getD []
      addKeys orig lower (alSet m key (cur ++ [orig])) rem (k + 1)

/-- One name of addList (typeAheadData.go lines 68-88): Æ replacement,
lowercasing, and the loop over keyIndexEnd from 1 to the byte length of
the processed name. -/
def addName (m : TypeAheadMap) (aName : Text) : Option TypeAheadMap :=
  let aName := replaceAE aName
  let aLowerName := goToLower aName
  addKeys aName (encodeText aLowerName) m (goLen aName) 1

/-- typeAhead.addList (typeAheadData.go lines 63-91). -/
def addList (m : TypeAheadMap) : List Text → Option TypeAheadMap
  | [] => some m
  | n :: rest =>
    match addName m n with
    | none => none
    | some m1 => addList m1 rest

/-- The inner loop of prependList (typeAheadData.go lines 105-119): same
as addKeys but the original name is prepended to the entry. -/
def prependKeys (orig : Text) (lower : TAKey) :
    TypeAheadMap → Nat → Nat → Option TypeAheadMap
  | m, 0, _ => some m
  | m, rem + 1, k =>
    match sliceTo lower k with
    | none => none
    | some key =>
      let cur := (alGet m key).getD []
      prependKeys orig lower (alSet m key (orig :: cur)) rem (k + 1)

/-- One name of prependList (typeAheadData.go lines 99-119). -/
def prependName (m : TypeAheadMap) (aName : Text) : Option TypeAheadMap :=
  let aName := replaceAE aName
  let aLowerName := goToLower aName
  prependKeys aName (encodeText aLowerName) m (goLen aName) 1

/-- typeAhead.prependList (typeAheadData.go lines 94-122). -/
def prependList (m : TypeAheadMap) : List Text → Option TypeAheadMap
  | [] => some m
  | n :: rest =>
    match prependName m n with
    | none => none
    | some m1 => prependList m1 rest

/-- addName with the per-rune lowercase mapping of strings.ToLower left
abstract: addName is this builder at goToLowerChar, and stating safety
for an arbitrary mapping keeps the theorems independent of the modelled
fragment of the Unicode table — instantiating low at the true Go mapping
yields the statement about the real program. -/
def addNameWith (low : Char → Char) (m : TypeAheadMap) (aName : Text) :
    Option TypeAheadMap :=
  let aName := replaceAE aName
  let aLowerName := aName.map low
  addKeys aName (encodeText aLowerName) m (goLen aName) 1

/-- addList with the per-rune lowercase mapping left abstract. -/
def addListWith (low : Char → Char) (m : TypeAheadMap) :
    List Text → Option TypeAheadMap
  | [] => some m
  | n :: rest =>
    match addNameWith low m n with
    | none => none
    | some m1 => addListWith low m1 rest

/-- prependName with the per-rune lowercase mapping left abstract. -/
def prependNameWith (low : Char → Char) (m : TypeAheadMap) (aName : Text) :
    Option TypeAheadMap :=
  let aName := replaceAE aName
  let aLowerName := aName.map low
  prependKeys aName (encodeText aLowerName) m (goLen aName) 1

/-- prependList with the per-rune lowercase mapping left abstract. -/
def prependListWith (low : Char → Char) (m : TypeAheadMap) :
    List Text → Option TypeAheadMap
  | [] => some m
  | n :: rest =>
    match prependNameWith low m n with
    | none => none
    | some m1 => prependListWith low m1 rest

/-- Membership of a name under a key of the type-ahead map. -/
def taMem (m : TypeAheadMap) (k : TAKey) (x : Text) : Prop :=
  ∃ l, alGet m k = some l ∧ x ∈ l

/-! ## Sample inputs used by the concrete witnesses -/

/-- A sample valid ApplyEntry argument (the scenario of spec section 8). -/
def sampleSpec : CardSpec :=
  ⟨"alice".toList, "binder1".toList, "Bolt".toList, "LEA".toList, [],
    4, "NM".toList, "EN".toList, 100⟩

/-- The empty user manager. -/
def emptyManager : UserManager := ⟨[], [], [], []⟩

/-- A password validator accepting everything, for concrete runs. -/
def pwOkAll : Text → Bool := fun _ => true

/-- A password derivation returning fixed bytes, for concrete runs. -/
def deriveZero : Text → List Nat × List Nat := fun _ => ([0], [0])

/-- A sample fresh session key, for concrete runs. -/
def sampleKey : Text := "k".toList

/-- A storage function for ephemeral credentials that appends one row,
for concrete runs. -/
def sampleEphemStore : List EphemRow → Text → List EphemRow × List Nat :=
  fun db name => (db ++ [⟨name, [1], ⟨0, 10⟩⟩], [1])

/-! ## Lemmas about the add_card upsert loop -/

theorem matchesKey_updateRow (a : CardSpec) (r : ContentRow) :
    matchesKey a (updateRow a r) = matchesKey a r := by
  unfold updateRow
  by_cases h : matchesKey a r
  · simp only [h, if_pos]
    simp only [matchesKey, ContentRow.key] at h ⊢
    exact h
  · simp [h]

theorem countKey_eq_countP (a : CardSpec) (st : Contents) :
    countKey a st = st.countP (matchesKey a) := by
  simp [countKey, List.countP_eq_length_filter]

theorem countKey_updateContents (a : CardSpec) (st : Contents) :
    countKey a (updateContents a st) = countKey a st := by
  simp only [countKey_eq_countP, updateContents, List.countP_map]
  exact List.countP_congr (fun r _ => by
    simp [Function.comp, matchesKey_updateRow])

theorem keyPresent_iff (a : CardSpec) (st : Contents) :
    keyPresent a st = true ↔ 1 ≤ countKey a st := by
  simp only [keyPresent, countKey_eq_countP, List.any_eq_true, Nat.one_le_iff_ne_zero]
  rw [Ne, List.countP_eq_zero]
  simp

theorem keyPresent_false_iff (a : CardSpec) (st : Contents) :
    keyPresent a st = false ↔ countKey a st = 0 := by
  rw [← Bool.not_eq_true, keyPresent_iff]
  omega

theorem countKey_insertRow (a : CardSpec) (st : Contents) :
    countKey a (insertRow a st) = countKey a st + 1 := by
  simp only [countKey_eq_countP, insertRow, List.countP_append]
  have : matchesKey a a.row = true := by
    simp [matchesKey, ContentRow.key, CardSpec.row, CardSpec.key]
  simp [this, List.countP_cons]

/-- The values that a successful ApplyEntry must leave on the row of its
identity key: one content row with the given comment, quantity and
timestamp. -/
def keyContract (a : CardSpec) (st : Contents) : Prop :=
  countKey a st = 1 ∧ ∀ r ∈ st, matchesKey a r = true →
    r.comment = a.comment ∧ r.quantity = a.quantity ∧ r.lastUpdate = a.time

instance (a : CardSpec) (st : Contents) : Decidable (keyContract a st) := by
  unfold keyContract
  infer_instance

theorem updateContents_values (a : CardSpec) (st : Contents) :
    ∀ r ∈ updateContents a st, matchesKey a r = true →
      r.comment = a.comment ∧ r.quantity = a.quantity ∧ r.lastUpdate = a.time := by
  intro r hr hm
  simp only [updateContents, List.mem_map] at hr
  obtain ⟨r0, _, rfl⟩ := hr
  rw [matchesKey_updateRow] at hm
  simp [updateRow, hm]

/-- The key contract holds of every state a successful add_card run
returns, provided the table never holds more than one row of the key and
interference preserves that bound (which the uniqueContentsKey constraint
provides). -/
theorem add_card_some_keyContract (a : CardSpec) (schedU schedI : Sched)
    (hU : ∀ i s, countKey a s ≤ 1 → countKey a (schedU i s) ≤ 1)
    (hI : ∀ i s, countKey a s ≤ 1 → countKey a (schedI i s) ≤ 1) :
    ∀ fuel i st, countKey a st ≤ 1 →
      ∀ st', add_card schedU schedI a fuel i st = some st' → keyContract a st' := by
  intro fuel
  induction fuel with
  | zero => intro i st _ st' h; simp [add_card] at h
  | succ n ih =>
    intro i st hst st' h
    rw [add_card] at h
    by_cases hfound : keyPresent a (schedU i st) = true
    · simp only [hfound, if_pos] at h
      cases h
      constructor
      · have h1 : 1 ≤ countKey a (schedU i st) := (keyPresent_iff a _).mp hfound
        have h2 : countKey a (schedU i st) ≤ 1 := hU i st hst
        rw [countKey_updateContents]
        omega
      · exact updateContents_values a _
    · rw [Bool.not_eq_true] at hfound
      simp only [hfound, Bool.false_eq_true, if_neg, if_false] at h
      have hst0 : countKey a (schedU i st) = 0 := (keyPresent_false_iff a _).mp hfound
      have hst1 : countKey a (updateContents a (schedU i st)) ≤ 1 := by
        rw [countKey_updateContents]; omega
      have hst2 : countKey a (schedI i (updateContents a (schedU i st))) ≤ 1 := hI _ _ hst1
      by_cases hconf : keyPresent a (schedI i (updateContents a (schedU i st))) = true
      · simp only [hconf, if_pos] at h
        exact ih (i + 1) _ hst2 st' h
      · rw [Bool.not_eq_true] at hconf
        simp only [hconf, Bool.false_eq_true, if_neg, if_false, Option.some.injEq] at h
        subst h
        have hzero : countKey a (schedI i (updateContents a (schedU i st))) = 0 :=
          (keyPresent_false_iff a _).mp hconf
        constructor
        · rw [countKey_insertRow, hzero]
        · intro r hr hm
          simp only [insertRow, List.mem_append, List.mem_singleton] at hr
          rcases hr with hr | rfl
          · exfalso
            have : 1 ≤ countKey a (schedI i (updateContents a (schedU i st))) := by
              rw [countKey_eq_countP]
              exact List.countP_pos_iff.mpr ⟨r, hr, hm⟩
            omega
          · simp [CardSpec.row]

/-! ## Lemmas about ApplyEntry and the history ledger -/

theorem applyEntry_some_parts (schedU schedI : Sched) (fuel : Nat) (db : DB)
    (a : CardSpec) (db' : DB) (h : ApplyEntry schedU schedI fuel db a = some db') :
    validSpec a = true ∧
    add_card schedU schedI a fuel 0 db.contents = some db'.contents ∧
    db'.history = db.history ++ [a.row] := by
  unfold ApplyEntry at h
  by_cases hv : validSpec a = true
  · simp only [hv, if_pos] at h
    rcases hc : add_card schedU schedI a fuel 0 db.contents with _ | c
    · rw [hc] at h; simp at h
    · rw [hc] at h
      simp only [Option.some.injEq] at h
      subst h
      exact ⟨hv, by simp [hc], rfl⟩
  · simp [hv] at h

theorem matchesKey_row (a : CardSpec) : matchesKey a a.row = true := by
  simp [matchesKey, ContentRow.key, CardSpec.row, CardSpec.key]

theorem countHist_append_row (a : CardSpec) (h : List ContentRow) :
    countHist a (h ++ [a.row]) = countHist a h + 1 := by
  unfold countHist
  rw [List.filter_append]
  have h2 : (matchesKey a a.row && decide (a.row.lastUpdate = a.time)) = true := by
    rw [matchesKey_row a]
    simp [CardSpec.row]
  simp only [List.filter_cons, List.filter_nil, h2, if_true]
  simp

/-! ## Divergence and termination of the upsert loop -/

/-- Interference that removes every row of the key before the UPDATE of
each iteration (a concurrent transaction outside this core; the
usermanager role itself cannot delete contents rows). -/
def removeKeySched (a : CardSpec) : Sched :=
  fun _ st => st.filter (fun r => !(matchesKey a r))

/-- Interference that commits an insert of the same identity key between
the UPDATE and the INSERT of each iteration (exactly a racing add_card
caller). -/
def insertKeySched (a : CardSpec) : Sched :=
  fun _ st => st ++ [a.row]

/-- The loop of add_card has not returned within any number of
iterations, for a given interference pair, argument and start state. -/
def addCardDiverges (schedU schedI : Sched) (a : CardSpec) (st : Contents) : Prop :=
  ∀ fuel i, add_card schedU schedI a fuel i st = none

theorem keyPresent_removeKeySched (a : CardSpec) (i : Nat) (st : Contents) :
    keyPresent a (removeKeySched a i st) = false := by
  simp only [keyPresent, removeKeySched, List.any_eq_false]
  intro r hr
  rw [List.mem_filter] at hr
  simpa using hr.2

theorem keyPresent_insertKeySched (a : CardSpec) (i : Nat) (st : Contents) :
    keyPresent a (insertKeySched a i st) = true := by
  simp only [keyPresent, insertKeySched, List.any_eq_true]
  exact ⟨a.row, by simp, matchesKey_row a⟩

/-- Under interference that keeps removing the key before the UPDATE and
re-inserting it before the INSERT, the loop never returns, whatever
iteration budget we observe: the LOOP of add_card has no bound, no
timeout and no Contention outcome. -/
theorem add_card_diverges_all (a : CardSpec) :
    ∀ st, addCardDiverges (removeKeySched a) (insertKeySched a) a st := by
  intro st fuel
  induction fuel generalizing st with
  | zero => intro i; rfl
  | succ n ih =>
    intro i
    rw [add_card]
    have h0 := keyPresent_removeKeySched a i st
    simp only [h0, Bool.false_eq_true, if_false]
    have h2 := keyPresent_insertKeySched a i (updateContents a (removeKeySched a i st))
    simp only [h2, if_pos]
    exact ih _ _

/-- An interference function that only appends rows to the table: the
behaviour of every concurrent writer of this core, since the usermanager
role has no delete privilege on collectionContents and the UPDATE of a
racing add_card preserves every key. -/
def insertOnly (f : Sched) : Prop := ∀ i s, ∃ ext, f i s = s ++ ext

theorem keyPresent_append_left (a : CardSpec) (s ext : Contents)
    (h : keyPresent a s = true) : keyPresent a (s ++ ext) = true := by
  simp only [keyPresent, List.any_eq_true] at h ⊢
  obtain ⟨r, hr, hm⟩ := h
  exact ⟨r, List.mem_append_left _ hr, hm⟩

/-! ## Lemmas about association-list maps -/

theorem alGet_alSet_self {κ α : Type} [DecidableEq κ] (l : List (κ × α))
    (k : κ) (v : α) : alGet (alSet l k v) k = some v := by
  induction l with
  | nil => simp [alGet, alSet]
  | cons p rest ih =>
    by_cases h : p.1 = k
    · simp [alSet, alGet, h]
    · simp only [alSet, alGet, h, if_neg, if_false]
      rcases p with ⟨k0, v0⟩
      simp only at h
      simp [alGet, h, ih]

theorem alGet_alSet_ne {κ α : Type} [DecidableEq κ] (l : List (κ × α))
    (k k' : κ) (v : α) (h : k' ≠ k) : alGet (alSet l k v) k' = alGet l k' := by
  have hne : k ≠ k' := fun he => h he.symm
  induction l with
  | nil => simp [alGet, alSet, hne]
  | cons p rest ih =>
    rcases p with ⟨k0, v0⟩
    by_cases h0 : k0 = k
    · subst h0
      simp [alSet, alGet, hne]
    · simp [alSet, alGet, h0, ih]

theorem alGet_isSome_alSet {κ α : Type} [DecidableEq κ] (l : List (κ × α))
    (k k' : κ) (v : α) (h : (alGet l k').isSome) :
    (alGet (alSet l k v) k').isSome := by
  by_cases he : k' = k
  · subst he
    rw [alGet_alSet_self]
    rfl
  · rw [alGet_alSet_ne l k k' v he]
    exact h

theorem alSet_of_absent {κ α : Type} [DecidableEq κ] (l : List (κ × α))
    (k : κ) (v : α) (h : alGet l k = none) : alSet l k v = l ++ [(k, v)] := by
  induction l with
  | nil => simp [alSet]
  | cons p rest ih =>
    rcases p with ⟨k0, v0⟩
    by_cases h0 : k0 = k
    · subst h0
      simp [alGet] at h
    · simp only [alGet, h0, if_neg, if_false] at h
      simp [alSet, h0, ih h]

/-! ## Lemmas about pairwise-distinct text lists -/

theorem textsDistinct_append_singleton (xs : List Text) (e : Text) :
    textsDistinct (xs ++ [e]) = true ↔ textsDistinct xs = true ∧ e ∉ xs := by
  simp only [textsDistinct, decide_eq_true_eq, List.nodup_append,
    List.nodup_singleton, true_and, List.disjoint_singleton]

/-- When interference only ever inserts rows, the loop returns within two
iterations: a first-time insert either succeeds at once or, after one
uniqueness conflict, finds the freshly inserted row and updates it. -/
theorem add_card_two_iterations (a : CardSpec) (schedU schedI : Sched)
    (hU : insertOnly schedU) :
    ∀ i st, ∃ st', add_card schedU schedI a 2 i st = some st' := by
  intro i st
  rw [add_card]
  by_cases hfound : keyPresent a (schedU i st) = true
  · simp only [hfound, if_pos]
    exact ⟨_, rfl⟩
  · rw [Bool.not_eq_true] at hfound
    simp only [hfound, Bool.false_eq_true, if_false]
    by_cases hconf :
        keyPresent a (schedI i (updateContents a (schedU i st))) = true
    · simp only [hconf, if_pos]
      rw [add_card]
      obtain ⟨ext, hext⟩ := hU (i + 1) (schedI i (updateContents a (schedU i st)))
      have hk : keyPresent a
          (schedU (i + 1) (schedI i (updateContents a (schedU i st)))) = true := by
        rw [hext]
        exact keyPresent_append_left a _ _ hconf
      simp only [hk, if_pos]
      exact ⟨_, rfl⟩
    · rw [Bool.not_eq_true] at hconf
      simp only [hconf, Bool.false_eq_true, if_false]
      exact ⟨_, rfl⟩

/-! ## Lemmas about AddUser -/

/-- The application-layer email invariant: the users held in memory carry
pairwise distinct emails, and each of them is reserved in the
EmailsToUserNames map. -/
def emailInv (m : UserManager) : Prop :=
  textsDistinct (managerEmails m) = true ∧ emailsCovered m = true

instance (m : UserManager) : Decidable (emailInv m) := by
  unfold emailInv
  infer_instance

/-- The fresh user AddUser builds from its arguments. -/
def freshUser (derive : Text → List Nat × List Nat) (freshKey : Text)
    (name email password : Text) (maxCollections : Int) : User :=
  ⟨name, email, (derive password).2, (derive password).1, maxCollections,
    [], [freshKey]⟩

/-- The state of the manager after the two in-memory map insertions of
AddUser, before userToStorage runs. -/
def addUserMaps (derive : Text → List Nat × List Nat) (freshKey : Text)
    (m : UserManager) (name email password : Text) (maxCollections : Int) :
    UserManager :=
  { m with
    users := alSet m.users name
      (freshUser derive freshKey name email password maxCollections),
    emailsToUserNames := alSet m.emailsToUserNames email name }

theorem addUser_checks_pass (pwOk : Text → Bool)
    (derive : Text → List Nat × List Nat) (freshKey : Text) (storeOk : Bool)
    (m : UserManager) (name email password : Text) (mc : Int)
    (h1 : ¬ goLen name > fieldLength) (h2 : ¬ goLen email > fieldLength)
    (h3 : ¬ goLen password > fieldLength) (h4 : pwOk password = true)
    (h5 : userExists m name = false) (h6 : emailUsed m email = false) :
    AddUser pwOk derive freshKey storeOk m name email password mc =
      (if storeOk then
        ({ addUserMaps derive freshKey m name email password mc with
            userNames := m.userNames ++ [name],
            stored := m.stored ++ [name] }, .ok freshKey)
      else (addUserMaps derive freshKey m name email password mc,
        .error .storageFailure)) := by
  unfold AddUser
  simp only [h1, h2, h3, decide_eq_true_eq, decide_eq_false_iff_not,
    not_false_eq_true, decide_eq_false, Bool.or_self, Bool.false_or,
    Bool.or_false, if_false, h4, Bool.not_true, Bool.false_eq_true, h5, h6,
    userToStorage]
  cases storeOk with
  | false => simp [addUserMaps, freshUser]
  | true => simp [addUserMaps, freshUser]

theorem managerEmails_addUserMaps (derive : Text → List Nat × List Nat)
    (freshKey : Text) (m : UserManager) (name email password : Text) (mc : Int)
    (h5 : userExists m name = false) :
    managerEmails (addUserMaps derive freshKey m name email password mc) =
      managerEmails m ++ [email] := by
  unfold managerEmails addUserMaps
  simp only
  rw [alSet_of_absent]
  · simp [freshUser]
  · unfold userExists at h5
    exact Option.not_isSome_iff_eq_none.mp (by simp [h5])

theorem emailInv_addUserMaps (derive : Text → List Nat × List Nat)
    (freshKey : Text) (m : UserManager) (name email password : Text) (mc : Int)
    (hinv : emailInv m) (h5 : userExists m name = false)
    (h6 : emailUsed m email = false) :
    emailInv (addUserMaps derive freshKey m name email password mc) := by
  obtain ⟨hdist, hcov⟩ := hinv
  have husers : alGet m.users name = none := by
    unfold userExists at h5
    exact Option.not_isSome_iff_eq_none.mp (by simp [h5])
  have hemail : alGet m.emailsToUserNames email = none := by
    unfold emailUsed at h6
    exact Option.not_isSome_iff_eq_none.mp (by simp [h6])
  have hnot : email ∉ managerEmails m := by
    intro hmem
    unfold managerEmails at hmem
    rw [List.mem_map] at hmem
    obtain ⟨p, hp, hpe⟩ := hmem
    have := (List.all_eq_true.mp hcov) p hp
    unfold emailUsed at this
    rw [hpe] at this
    rw [hemail] at this
    simp at this
  constructor
  · rw [managerEmails_addUserMaps derive freshKey m name email password mc h5]
    exact (textsDistinct_append_singleton _ _).mpr ⟨hdist, hnot⟩
  · unfold emailsCovered
    rw [List.all_eq_true]
    intro p hp
    unfold addUserMaps at hp
    simp only at hp
    rw [alSet_of_absent m.users name _ husers, List.mem_append] at hp
    unfold emailUsed addUserMaps
    simp only
    rcases hp with hp | hp
    · have := (List.all_eq_true.mp hcov) p hp
      unfold emailUsed at this
      exact alGet_isSome_alSet _ _ _ _ this
    · rw [List.mem_singleton] at hp
      subst hp
      simp only [freshUser]
      rw [alGet_alSet_self]
      rfl

/-- Every path of AddUser preserves the application-layer email
invariant: rejected calls leave the manager untouched, a storage failure
leaves the two freshly checked map insertions, and a successful call
additionally records the name. -/
theorem addUser_preserves_emailInv (pwOk : Text → Bool)
    (derive : Text → List Nat × List Nat) (freshKey : Text) (storeOk : Bool)
    (m : UserManager) (name email password : Text) (mc : Int)
    (hinv : emailInv m) :
    emailInv (AddUser pwOk derive freshKey storeOk m name email password mc).1 := by
  by_cases h1 : goLen name > fieldLength
  · unfold AddUser
    simp [h1, hinv]
  by_cases h2 : goLen email > fieldLength
  · unfold AddUser
    simp [h1, h2, hinv]
  by_cases h3 : goLen password > fieldLength
  · unfold AddUser
    simp [h1, h2, h3, hinv]
  by_cases h4 : pwOk password = true
  case neg =>
    unfold AddUser
    simp only [h1, h2, h3, decide_eq_false, Bool.or_self, Bool.false_eq_true,
      if_false]
    rw [Bool.not_eq_true] at h4
    simp [h4, hinv]
  by_cases h5 : userExists m name = true
  · unfold AddUser
    simp only [h1, h2, h3, decide_eq_false, Bool.or_self, Bool.false_eq_true,
      if_false, h4, Bool.not_true, h5, if_true, if_pos]
    exact hinv
  by_cases h6 : emailUsed m email = true
  · unfold AddUser
    simp only [h1, h2, h3, decide_eq_false, Bool.or_self, Bool.false_eq_true,
      if_false, h4, Bool.not_true, h5, h6, if_true, if_pos]
    exact hinv
  rw [Bool.not_eq_true] at h5 h6
  rw [addUser_checks_pass pwOk derive freshKey storeOk m name email password mc
    h1 h2 h3 h4 h5 h6]
  have hmaps := emailInv_addUserMaps derive freshKey m name email password mc
    hinv h5 h6
  cases storeOk with
  | false => exact hmaps
  | true => exact hmaps

/-- A name, email or password longer than fieldLength bytes is rejected
up front: AddUser returns the too-long error with the manager untouched,
whatever the password checker, derivation, storage outcome and remaining
arguments are. -/
theorem addUser_rejects_long (pwOk : Text → Bool)
    (derive : Text → List Nat × List Nat) (freshKey : Text) (storeOk : Bool)
    (m : UserManager) (name email password : Text) (mc : Int)
    (h : goLen name > fieldLength ∨ goLen email > fieldLength ∨
      goLen password > fieldLength) :
    AddUser pwOk derive freshKey storeOk m name email password mc =
      (m, .error .fieldTooLong) := by
  unfold AddUser
  rcases h with h | h | h <;> simp [h]

/-- Every row a users.meta state that the storage layer admits holds name
and email of fewer than 280 characters. -/
theorem metaTableOk_length (t : List MetaRow) (h : metaTableOk t = true) :
    ∀ r ∈ t, r.name.length < 280 ∧ r.email.length < 280 := by
  intro r hr
  unfold metaTableOk at h
  rw [Bool.and_eq_true] at h
  have hrow := (List.all_eq_true.mp h.1) r hr
  rw [Bool.and_eq_true] at hrow
  unfold standardTextOk at hrow
  exact ⟨by simpa using hrow.1, by simpa using hrow.2⟩

/-! ## Lemmas about the type-ahead builder -/

theorem taMem_alSet_append (m : TypeAheadMap) (key : TAKey) (orig : Text)
    (k' : TAKey) (x : Text) (h : taMem m k' x) :
    taMem (alSet m key (((alGet m key).getD []) ++ [orig])) k' x := by
  by_cases he : k' = key
  · subst he
    obtain ⟨l, hl, hx⟩ := h
    refine ⟨_, alGet_alSet_self _ _ _, ?_⟩
    rw [hl]
    exact List.mem_append_left _ hx
  · obtain ⟨l, hl, hx⟩ := h
    refine ⟨l, ?_, hx⟩
    rw [alGet_alSet_ne _ _ _ _ he]
    exact hl

theorem taMem_alSet_self_append (m : TypeAheadMap) (key : TAKey) (orig : Text) :
    taMem (alSet m key (((alGet m key).getD []) ++ [orig])) key orig :=
  ⟨_, alGet_alSet_self _ _ _, List.mem_append_right _ (List.mem_singleton_self _)⟩

theorem taMem_alSet_cons (m : TypeAheadMap) (key : TAKey) (orig : Text)
    (k' : TAKey) (x : Text) (h : taMem m k' x) :
    taMem (alSet m key (orig :: ((alGet m key).getD []))) k' x := by
  by_cases he : k' = key
  · subst he
    obtain ⟨l, hl, hx⟩ := h
    refine ⟨_, alGet_alSet_self _ _ _, ?_⟩
    rw [hl]
    exact List.mem_cons_of_mem _ hx
  · obtain ⟨l, hl, hx⟩ := h
    refine ⟨l, ?_, hx⟩
    rw [alGet_alSet_ne _ _ _ _ he]
    exact hl

theorem taMem_alSet_self_cons (m : TypeAheadMap) (key : TAKey) (orig : Text) :
    taMem (alSet m key (orig :: ((alGet m key).getD []))) key orig :=
  ⟨_, alGet_alSet_self _ _ _, List.mem_cons_self _ _⟩

theorem addKeys_spec (orig : Text) (lower : TAKey) :
    ∀ rem k m, k + rem ≤ lower.length + 1 →
      ∃ m', addKeys orig lower m rem k = some m' ∧
        (∀ k' x, taMem m k' x → taMem m' k' x) ∧
        (∀ j, k ≤ j → j < k + rem → taMem m' (lower.take j) orig) := by
  intro rem
  induction rem with
  | zero =>
    intro k m _
    exact ⟨m, rfl, fun _ _ h => h, fun j hj1 hj2 => absurd hj2 (by omega)⟩
  | succ n ih =>
    intro k m hk
    have hslice : sliceTo lower k = some (lower.take k) := by
      unfold sliceTo
      rw [if_pos (by omega)]
    obtain ⟨m', hrun, hpres, hmem⟩ := ih (k + 1)
      (alSet m (lower.take k) (((alGet m (lower.take k)).getD []) ++ [orig]))
      (by omega)
    refine ⟨m', ?_, ?_, ?_⟩
    · rw [addKeys, hslice]
      exact hrun
    · intro k' x h
      exact hpres k' x (taMem_alSet_append _ _ _ _ _ h)
    · intro j hj1 hj2
      by_cases hjk : j = k
      · subst hjk
        exact hpres _ _ (taMem_alSet_self_append m _ orig)
      · exact hmem j (by omega) (by omega)

theorem prependKeys_spec (orig : Text) (lower : TAKey) :
    ∀ rem k m, k + rem ≤ lower.length + 1 →
      ∃ m', prependKeys orig lower m rem k = some m' ∧
        (∀ k' x, taMem m k' x → taMem m' k' x) ∧
        (∀ j, k ≤ j → j < k + rem → taMem m' (lower.take j) orig) := by
  intro rem
  induction rem with
  | zero =>
    intro k m _
    exact ⟨m, rfl, fun _ _ h => h, fun j hj1 hj2 => absurd hj2 (by omega)⟩
  | succ n ih =>
    intro k m hk
    have hslice : sliceTo lower k = some (lower.take k) := by
      unfold sliceTo
      rw [if_pos (by omega)]
    obtain ⟨m', hrun, hpres, hmem⟩ := ih (k + 1)
      (alSet m (lower.take k) (orig :: ((alGet m (lower.take k)).getD [])))
      (by omega)
    refine ⟨m', ?_, ?_, ?_⟩
    · rw [prependKeys, hslice]
      exact hrun
    · intro k' x h
      exact hpres k' x (taMem_alSet_cons _ _ _ _ _ h)
    · intro j hj1 hj2
      by_cases hjk : j = k
      · subst hjk
        exact hpres _ _ (taMem_alSet_self_cons m _ orig)
      · exact hmem j (by omega) (by omega)

theorem addNameWith_spec (low : Char → Char) (n : Text) (m : TypeAheadMap)
    (hlen : goLen (replaceAE n) ≤ goLen ((replaceAE n).map low)) :
    ∃ m', addNameWith low m n = some m' ∧
      (∀ k' x, taMem m k' x → taMem m' k' x) ∧
      (∀ j, 1 ≤ j → j ≤ goLen (replaceAE n) →
        taMem m' ((encodeText ((replaceAE n).map low)).take j) (replaceAE n)) := by
  obtain ⟨m', hrun, hpres, hmem⟩ := addKeys_spec (replaceAE n)
    (encodeText ((replaceAE n).map low)) (goLen (replaceAE n)) 1 m
    (by unfold goLen at hlen ⊢; omega)
  exact ⟨m', hrun, hpres, fun j h1 h2 => hmem j h1 (by omega)⟩

theorem prependNameWith_spec (low : Char → Char) (n : Text) (m : TypeAheadMap)
    (hlen : goLen (replaceAE n) ≤ goLen ((replaceAE n).map low)) :
    ∃ m', prependNameWith low m n = some m' ∧
      (∀ k' x, taMem m k' x → taMem m' k' x) ∧
      (∀ j, 1 ≤ j → j ≤ goLen (replaceAE n) →
        taMem m' ((encodeText ((replaceAE n).map low)).take j) (replaceAE n)) := by
  obtain ⟨m', hrun, hpres, hmem⟩ := prependKeys_spec (replaceAE n)
    (encodeText ((replaceAE n).map low)) (goLen (replaceAE n)) 1 m
    (by unfold goLen at hlen ⊢; omega)
  exact ⟨m', hrun, hpres, fun j h1 h2 => hmem j h1 (by omega)⟩

theorem addListWith_spec (low : Char → Char) :
    ∀ (names : List Text) (m : TypeAheadMap),
      (∀ n ∈ names, goLen (replaceAE n) ≤ goLen ((replaceAE n).map low)) →
      ∃ m', addListWith low m names = some m' ∧
        (∀ k x, taMem m k x → taMem m' k x) ∧
        (∀ n ∈ names, ∀ j, 1 ≤ j → j ≤ goLen (replaceAE n) →
          taMem m' ((encodeText ((replaceAE n).map low)).take j) (replaceAE n)) := by
  intro names
  induction names with
  | nil =>
    intro m _
    exact ⟨m, rfl, fun _ _ h => h, by simp⟩
  | cons n rest ih =>
    intro m hlen
    obtain ⟨m1, hrun1, hpres1, hmem1⟩ := addNameWith_spec low n m (hlen n (by simp))
    obtain ⟨m', hrun2, hpres2, hmem2⟩ := ih m1
      (fun n' hn' => hlen n' (List.mem_cons_of_mem _ hn'))
    refine ⟨m', ?_, fun k x h => hpres2 k x (hpres1 k x h), ?_⟩
    · rw [addListWith, hrun1]
      exact hrun2
    · intro n' hn' j hj1 hj2
      rcases List.mem_cons.mp hn' with rfl | hn'
      · exact hpres2 _ _ (hmem1 j hj1 hj2)
      · exact hmem2 n' hn' j hj1 hj2

theorem prependListWith_spec (low : Char → Char) :
    ∀ (names : List Text) (m : TypeAheadMap),
      (∀ n ∈ names, goLen (replaceAE n) ≤ goLen ((replaceAE n).map low)) →
      ∃ m', prependListWith low m names = some m' ∧
        (∀ k x, taMem m k x → taMem m' k x) ∧
        (∀ n ∈ names, ∀ j, 1 ≤ j → j ≤ goLen (replaceAE n) →
          taMem m' ((encodeText ((replaceAE n).map low)).take j) (replaceAE n)) := by
  intro names
  induction names with
  | nil =>
    intro m _
    exact ⟨m, rfl, fun _ _ h => h, by simp⟩
  | cons n rest ih =>
    intro m hlen
    obtain ⟨m1, hrun1, hpres1, hmem1⟩ := prependNameWith_spec low n m
      (hlen n (by simp))
    obtain ⟨m', hrun2, hpres2, hmem2⟩ := ih m1
      (fun n' hn' => hlen n' (List.mem_cons_of_mem _ hn'))
    refine ⟨m', ?_, fun k x h => hpres2 k x (hpres1 k x h), ?_⟩
    · rw [prependListWith, hrun1]
      exact hrun2
    · intro n' hn' j hj1 hj2
      rcases List.mem_cons.mp hn' with rfl | hn'
      · exact hpres2 _ _ (hmem1 j hj1 hj2)
      · exact hmem2 n' hn' j hj1 hj2

/-- addList is the abstract builder at the modelled lowercase mapping. -/
theorem addList_eq_with (names : List Text) :
    ∀ m, addList m names = addListWith goToLowerChar m names := by
  induction names with
  | nil => intro m; rfl
  | cons n rest ih =>
    intro m
    rw [addList, addListWith]
    have hn : addName m n = addNameWith goToLowerChar m n := rfl
    rw [hn]
    cases addNameWith goToLowerChar m n with
    | none => rfl
    | some m1 => exact ih m1

/-- prependList is the abstract builder at the modelled lowercase
mapping. -/
theorem prependList_eq_with (names : List Text) :
    ∀ m, prependList m names = prependListWith goToLowerChar m names := by
  induction names with
  | nil => intro m; rfl
  | cons n rest ih =>
    intro m
    rw [prependList, prependListWith]
    have hn : prependName m n = prependNameWith goToLowerChar m n := rfl
    rw [hn]
    cases prependNameWith goToLowerChar m n with
    | none => rfl
    | some m1 => exact ih m1

/-! ## The claims -/

/-- Claim C1: every call to ApplyEntry that returns successfully has
appended exactly one HistoryEntry row carrying the given identity key at
the given timestamp to the history ledger, and the append happened only
once, after the content-row write it corresponds to succeeded: the new
history is the old history extended by exactly that one row, and the new
contents are the result of the successful add_card run. -/
theorem C1_applyEntry_one_history_row (schedU schedI : Sched) (fuel : Nat)
    (db : DB) (a : CardSpec) (db' : DB)
    (h : ApplyEntry schedU schedI fuel db a = some db') :
    db'.history = db.history ++ [a.row] ∧
    countHist a db'.history = countHist a db.history + 1 ∧
    add_card schedU schedI a fuel 0 db.contents = some db'.contents := by
  obtain ⟨_, hc, hh⟩ := applyEntry_some_parts schedU schedI fuel db a db' h
  refine ⟨hh, ?_, hc⟩
  rw [hh]
  exact countHist_append_row a _

/-- Concrete run discharging the hypothesis of the C1 theorem. -/
theorem C1_applyEntry_one_history_row_witness :
    countHist sampleSpec (DB.mk [sampleSpec.row] [sampleSpec.row]).history =
      countHist sampleSpec (DB.mk [] []).history + 1 :=
  (C1_applyEntry_one_history_row noInterference noInterference 2
    ⟨[], []⟩ sampleSpec ⟨[sampleSpec.row], [sampleSpec.row]⟩ (by decide)).2.1

/-- Claim C2: whenever add_card returns successfully — under arbitrary
interference that respects the uniqueContentsKey bound of at most one
row per identity key — the contents hold exactly one row of the identity
key, carrying exactly the given comment, quantity and timestamp; the
loop structure of the embedded add_card is the source algorithm: UPDATE
first, on absence INSERT, and on a uniqueness conflict the failed INSERT
is discarded and the UPDATE retried instead of surfacing the conflict. -/
theorem C2_add_card_upsert_contract (a : CardSpec) (schedU schedI : Sched)
    (hU : ∀ i s, countKey a s ≤ 1 → countKey a (schedU i s) ≤ 1)
    (hI : ∀ i s, countKey a s ≤ 1 → countKey a (schedI i s) ≤ 1)
    (fuel i : Nat) (st : Contents) (hst : countKey a st ≤ 1) (st' : Contents)
    (h : add_card schedU schedI a fuel i st = some st') :
    keyContract a st' :=
  add_card_some_keyContract a schedU schedI hU hI fuel i st hst st' h

/-- Concrete run discharging the hypotheses of the C2 theorem. -/
theorem C2_add_card_upsert_contract_witness :
    keyContract sampleSpec [sampleSpec.row] :=
  C2_add_card_upsert_contract sampleSpec noInterference noInterference
    (fun _ _ h => h) (fun _ _ h => h) 2 0 [] (by decide)
    [sampleSpec.row] (by decide)

/-- Claim C3 counterexample: the LOOP of add_card is unbounded — under
interference that removes the identity key before every UPDATE and
re-inserts it before every INSERT (a run of genuine uniqueness
conflicts), the loop has not returned after any number of iterations,
from the empty table; and the function has no Contention outcome at
all. -/
theorem C3_add_card_unbounded_counterexample :
    addCardDiverges (removeKeySched sampleSpec) (insertKeySched sampleSpec)
      sampleSpec [] :=
  add_card_diverges_all sampleSpec []

/-- Claim C3 as amended: the retry loop of add_card has no iteration
bound, no timeout and no Contention error — it retries indefinitely;
what holds instead is that when interference only ever inserts rows, as
racing add_card callers do (and the application role cannot delete
contents rows), the loop returns within two iterations. -/
theorem C3_add_card_terminates_under_inserts (a : CardSpec)
    (schedU schedI : Sched) (hU : insertOnly schedU) (i : Nat)
    (st : Contents) :
    ∃ st', add_card schedU schedI a 2 i st = some st' :=
  add_card_two_iterations a schedU schedI hU i st

/-- Concrete run discharging the hypothesis of the amended C3 theorem. -/
theorem C3_add_card_terminates_under_inserts_witness :
    ∃ st', add_card noInterference noInterference sampleSpec 2 0 [] = some st' :=
  C3_add_card_terminates_under_inserts sampleSpec noInterference
    noInterference (fun _ s => ⟨[], (List.append_nil s).symm⟩) 0 []

/-- A users.meta state holding two distinct users with the same email. -/
def dupEmailTable : List MetaRow :=
  [⟨"a".toList, "e".toList, [0], [0], 3⟩,
   ⟨"b".toList, "e".toList, [0], [0], 3⟩]

/-- Claim C4 counterexample: a users.meta state in which two user records
share one email satisfies everything the storage layer enforces — the
standardText domains and the uniquename UNIQUE constraint on the name
column — because the email column carries only the non-unique index
meta_email_index, not a uniqueness constraint. -/
theorem C4_email_not_unique_in_storage :
    metaTableOk dupEmailTable = true ∧
    metaEmailsDistinct dupEmailTable = false := by
  decide

/-- Claim C4 as amended: the storage layer enforces name uniqueness on
users.meta (every admissible table state has pairwise distinct names),
while email uniqueness rests on the application layer alone: the
emailUsed check of AddUser preserves the invariant that in-memory users
carry pairwise distinct emails, each reserved in the email map. -/
theorem C4_email_uniqueness_app_layer_only (pwOk : Text → Bool)
    (derive : Text → List Nat × List Nat) (freshKey : Text) (storeOk : Bool)
    (m : UserManager) (name email password : Text) (mc : Int)
    (hinv : emailInv m) :
    (∀ t : List MetaRow, metaTableOk t = true →
      textsDistinct (t.map (fun r => r.name)) = true) ∧
    emailInv (AddUser pwOk derive freshKey storeOk m name email password mc).1 := by
  constructor
  · intro t h
    unfold metaTableOk at h
    rw [Bool.and_eq_true] at h
    exact h.2
  · exact addUser_preserves_emailInv pwOk derive freshKey storeOk m name
      email password mc hinv

/-- Concrete run discharging the hypothesis of the amended C4 theorem. -/
theorem C4_email_uniqueness_app_layer_only_witness :
    emailInv (AddUser pwOkAll deriveZero sampleKey true emptyManager
      ("bob".toList) ("b".toList) ("pw".toList) 3).1 :=
  (C4_email_uniqueness_app_layer_only pwOkAll deriveZero sampleKey true
    emptyManager ("bob".toList) ("b".toList) ("pw".toList) 3 (by decide)).2

/-- A text value of exactly 280 characters. -/
def text280 : Text := List.replicate 280 'a'

/-- A user name of 250 ASCII characters, hence 250 bytes. -/
def name250 : Text := List.replicate 250 'a'

set_option maxRecDepth 4000 in
/-- Claim C5 counterexample: a 280-character value is within the claimed
at-most-280 acceptance bound yet the standardText domain rejects it
(LENGTH must be strictly below 280), and a 250-character name is within
the claimed 280-character application bound yet AddUser rejects it,
because the application bound fieldLength is 200 bytes, not 280. -/
theorem C5_length_bounds_counterexample :
    text280.length ≤ 280 ∧ standardTextOk text280 = false ∧
    fieldLength ≠ 280 ∧
    (AddUser pwOkAll deriveZero sampleKey true emptyManager name250
      ("e".toList) ("p".toList) 3).2 = .error .fieldTooLong :=
  ⟨by decide, by decide, by decide, by rfl⟩

/-- Claim C5 as amended: the storage boundary accepts text of fewer than
280 characters and rejects 280 or more; the application layer bounds
name, email and password to fieldLength = 200 bytes and rejects any
longer value before performing any write, returning the manager
untouched. -/
theorem C5_length_bounds_amended :
    fieldLength = 200 ∧
    (∀ s : Text, 280 ≤ s.length → standardTextOk s = false) ∧
    (∀ t : List MetaRow, metaTableOk t = true →
      ∀ r ∈ t, r.name.length < 280 ∧ r.email.length < 280) ∧
    (∀ (pwOk : Text → Bool) (derive : Text → List Nat × List Nat)
      (freshKey : Text) (storeOk : Bool) (m : UserManager)
      (name email password : Text) (mc : Int),
      goLen name > fieldLength ∨ goLen email > fieldLength ∨
        goLen password > fieldLength →
      AddUser pwOk derive freshKey storeOk m name email password mc =
        (m, .error .fieldTooLong)) := by
  refine ⟨rfl, ?_, metaTableOk_length, ?_⟩
  · intro s h
    unfold standardTextOk
    simp only [decide_eq_false_iff_not]
    omega
  · intro pwOk derive freshKey storeOk m name email password mc h
    exact addUser_rejects_long pwOk derive freshKey storeOk m name email
      password mc h

set_option maxRecDepth 4000 in
/-- Concrete runs discharging the hypotheses of the amended C5 theorem. -/
theorem C5_length_bounds_amended_witness :
    standardTextOk text280 = false ∧
    AddUser pwOkAll deriveZero sampleKey true emptyManager name250
      ("e".toList) ("p".toList) 3 = (emptyManager, .error .fieldTooLong) :=
  ⟨C5_length_bounds_amended.2.1 text280 (by decide),
   C5_length_bounds_amended.2.2.2 pwOkAll deriveZero sampleKey true
     emptyManager name250 ("e".toList) ("p".toList) 3 (Or.inl (by decide))⟩

/-- The result of an AddUser call whose durable write fails. -/
def failedAddUser : UserManager × Except AddUserErr Text :=
  AddUser pwOkAll deriveZero sampleKey false emptyManager ("bob".toList)
    ("b".toList) ("pw".toList) 3

/-- Claim C6 counterexample: with the durable write failing, AddUser does
report failure, but the users map and the EmailsToUserNames map still
hold the new record while durable storage holds nothing — and the model
carries no stale marking of any kind, so the in-memory change is neither
rolled back nor flagged. -/
theorem C6_no_rollback_counterexample :
    failedAddUser.2 = .error .storageFailure ∧
    (alGet failedAddUser.1.users ("bob".toList)).isSome = true ∧
    alGet failedAddUser.1.emailsToUserNames ("b".toList) = some ("bob".toList) ∧
    failedAddUser.1.stored = [] :=
  ⟨by rfl, by decide, by decide, by decide⟩

/-- Claim C6 as amended: when durable storage fails after the in-memory
insertion, AddUser reports the failure, but the users map and the email
map retain the fresh record with no rollback and no stale flag; only the
UserNames list and the durable state are left unchanged. -/
theorem C6_storage_failure_keeps_memory (pwOk : Text → Bool)
    (derive : Text → List Nat × List Nat) (freshKey : Text)
    (m : UserManager) (name email password : Text) (mc : Int)
    (h1 : ¬ goLen name > fieldLength) (h2 : ¬ goLen email > fieldLength)
    (h3 : ¬ goLen password > fieldLength) (h4 : pwOk password = true)
    (h5 : userExists m name = false) (h6 : emailUsed m email = false) :
    AddUser pwOk derive freshKey false m name email password mc =
      (addUserMaps derive freshKey m name email password mc,
        .error .storageFailure) ∧
    alGet (addUserMaps derive freshKey m name email password mc).users name =
      some (freshUser derive freshKey name email password mc) ∧
    alGet (addUserMaps derive freshKey m name email password mc).emailsToUserNames
      email = some name ∧
    (addUserMaps derive freshKey m name email password mc).userNames =
      m.userNames ∧
    (addUserMaps derive freshKey m name email password mc).stored = m.stored := by
  have hrun := addUser_checks_pass pwOk derive freshKey false m name email
    password mc h1 h2 h3 h4 h5 h6
  refine ⟨by simpa using hrun, ?_, ?_, rfl, rfl⟩
  · exact alGet_alSet_self _ _ _
  · exact alGet_alSet_self _ _ _

/-- Concrete run discharging the hypotheses of the amended C6 theorem. -/
theorem C6_storage_failure_keeps_memory_witness :
    AddUser pwOkAll deriveZero sampleKey false emptyManager ("bob".toList)
      ("b".toList) ("pw".toList) 3 =
      (addUserMaps deriveZero sampleKey emptyManager ("bob".toList)
        ("b".toList) ("pw".toList) 3, .error .storageFailure) :=
  (C6_storage_failure_keeps_memory pwOkAll deriveZero sampleKey emptyManager
    ("bob".toList) ("b".toList) ("pw".toList) 3 (by decide) (by decide)
    (by decide) (by decide) (by decide) (by decide)).1

/-- Claim C7: the column defaults of users.resets place endValid one full
day before startValid, so the validity window is already elapsed at
creation (endValid is at most startValid), and a token left with the
default window validates at no time whatsoever — a freshly issued reset
token can validate only if issuance explicitly opens a real future
window. -/
theorem C7_reset_default_window_expired :
    (∀ now : Int,
      (resetDefaultWindow now).endValid ≤ (resetDefaultWindow now).startValid) ∧
    (∀ now t : Int, windowValid (resetDefaultWindow now) t = false) := by
  constructor
  · intro now
    show now - 86400 ≤ now
    omega
  · intro now t
    rw [Bool.eq_false_iff]
    intro hcontra
    change (decide (now ≤ t) && decide (t < now - 86400)) = true at hcontra
    rw [Bool.and_eq_true, decide_eq_true_eq, decide_eq_true_eq] at hcontra
    omega

/-- Claim C8: for every user name longer than the field-length bound,
session issuance and reset-token issuance both fail with the InvalidField
error and create no row — the returned table equals the input table for
every conceivable storage implementation, because the length check
precedes any storage access. -/
theorem C8_long_names_rejected (bound : Nat)
    (storeS storeR : List EphemRow → Text → List EphemRow × List Nat)
    (dbS dbR : List EphemRow) (name : Text) (h : goLen name > bound) :
    AddSession bound storeS dbS name = (dbS, .error .invalidField) ∧
    RequestReset bound storeR dbR name = (dbR, .error .invalidField) := by
  unfold AddSession RequestReset
  simp [h]

/-- Concrete run discharging the hypothesis of the C8 theorem. -/
theorem C8_long_names_rejected_witness :
    AddSession 3 sampleEphemStore [] ("long".toList) =
      ([], .error .invalidField) ∧
    RequestReset 3 sampleEphemStore [] ("long".toList) =
      ([], .error .invalidField) :=
  C8_long_names_rejected 3 sampleEphemStore sampleEphemStore [] []
    ("long".toList) (by decide)

/-- Claim C9: rows of the history ledger are never updated or deleted by
this core: the storage grants for the application role on
users.collectionHistory are exactly select and insert — excluding update
and delete — and the one write path, the history append of a successful
ApplyEntry, extends the ledger by exactly one row, leaving every
existing row in place. -/
theorem C9_history_append_only :
    (Priv.upd ∉ grants Tbl.collectionHistory ∧
     Priv.del ∉ grants Tbl.collectionHistory) ∧
    (∀ (schedU schedI : Sched) (fuel : Nat) (db : DB) (a : CardSpec) (db' : DB),
      ApplyEntry schedU schedI fuel db a = some db' →
      db'.history = db.history ++ [a.row]) := by
  refine ⟨by decide, ?_⟩
  intro schedU schedI fuel db a db' h
  exact (applyEntry_some_parts schedU schedI fuel db a db' h).2.2

/-- Concrete run discharging the inner hypothesis of the C9 theorem. -/
theorem C9_history_append_only_witness :
    (DB.mk [sampleSpec.row] [sampleSpec.row]).history =
      (DB.mk ([] : Contents) ([] : List ContentRow)).history ++ [sampleSpec.row] :=
  C9_history_append_only.2 noInterference noInterference 2 ⟨[], []⟩
    sampleSpec ⟨[sampleSpec.row], [sampleSpec.row]⟩ (by decide)

/-- The one-character name U+0130, whose UTF-8 encoding shrinks from two
bytes to one under lowercasing. -/
def dottedI : Text := ['İ']

/-- The one-character name U+212A (kelvin sign), whose UTF-8 encoding
shrinks from three bytes to the one-byte U+006B under lowercasing. -/
def kelvinName : Text := [Char.ofNat 0x212A]

/-- Claim C10 counterexample: lowercasing shrinks the byte length of the
name consisting of the single character U+0130 (and likewise of the one
consisting of U+212A), so the prefix bound of the final loop iteration
exceeds the lowered byte length and both addList and prependList hit the
out-of-range slice, modelled as none. -/
theorem C10_lowercase_shrinks_counterexample :
    goLen (goToLower (replaceAE dottedI)) < goLen (replaceAE dottedI) ∧
    addList [] [dottedI] = none ∧ prependList [] [dottedI] = none ∧
    goLen (goToLower (replaceAE kelvinName)) < goLen (replaceAE kelvinName) ∧
    addList [] [kelvinName] = none ∧ prependList [] [kelvinName] = none :=
  ⟨by decide, by decide, by decide, by decide, by decide, by decide⟩

/-- Claim C10 as amended: for every per-rune lowercase mapping low and
every list of input names whose Æ-replaced form does not shrink in UTF-8
byte length under low, the type-ahead builders over low complete without
an out-of-range slice, and afterwards every byte-prefix key of the
lowered name, up to the byte length of the original, maps to a list
containing the processed name; addList and prependList are exactly these
builders at the modelled lowercase fragment, so instantiating low at the
full Go unicode.ToLower yields the statement about the real program.
The original universal claim fails because lowercasing can shrink the
encoding (U+0130 and U+212A among others), as the counterexample
shows. -/
theorem C10_typeahead_safe_when_nonshrinking (low : Char → Char)
    (names : List Text) (m : TypeAheadMap)
    (hlen : ∀ n ∈ names, goLen (replaceAE n) ≤ goLen ((replaceAE n).map low)) :
    (∃ m', addListWith low m names = some m' ∧
      ∀ n ∈ names, ∀ j, 1 ≤ j → j ≤ goLen (replaceAE n) →
        taMem m' ((encodeText ((replaceAE n).map low)).take j) (replaceAE n)) ∧
    (∃ m', prependListWith low m names = some m' ∧
      ∀ n ∈ names, ∀ j, 1 ≤ j → j ≤ goLen (replaceAE n) →
        taMem m' ((encodeText ((replaceAE n).map low)).take j) (replaceAE n)) ∧
    addList m names = addListWith goToLowerChar m names ∧
    prependList m names = prependListWith goToLowerChar m names := by
  obtain ⟨m1, h1, _, hm1⟩ := addListWith_spec low names m hlen
  obtain ⟨m2, h2, _, hm2⟩ := prependListWith_spec low names m hlen
  exact ⟨⟨m1, h1, hm1⟩, ⟨m2, h2, hm2⟩,
    addList_eq_with names m, prependList_eq_with names m⟩

/-- Concrete run discharging the hypothesis of the amended C10 theorem,
at the modelled lowercase mapping. -/
theorem C10_typeahead_safe_when_nonshrinking_witness :
    (∃ m', addListWith goToLowerChar [] [("Bolt".toList)] = some m' ∧
      ∀ n ∈ [("Bolt".toList)], ∀ j, 1 ≤ j → j ≤ goLen (replaceAE n) →
        taMem m' ((encodeText ((replaceAE n).map goToLowerChar)).take j)
          (replaceAE n)) ∧
    (∃ m', prependListWith goToLowerChar [] [("Bolt".toList)] = some m' ∧
      ∀ n ∈ [("Bolt".toList)], ∀ j, 1 ≤ j → j ≤ goLen (replaceAE n) →
        taMem m' ((encodeText ((replaceAE n).map goToLowerChar)).take j)
          (replaceAE n)) ∧
    addList [] [("Bolt".toList)] = addListWith goToLowerChar [] [("Bolt".toList)] ∧
    prependList [] [("Bolt".toList)] =
      prependListWith goToLowerChar [] [("Bolt".toList)] :=
  C10_typeahead_safe_when_nonshrinking goToLowerChar [("Bolt".toList)] []
    (by decide)

end GoPrices
